import Mathlib

/-!
Shallow embedding of the query core of `mtg.py` (a trading-card inventory
query engine): the record data model, the two-phase filter engine around the
collapse (deduplication-with-summation) step, the sort comparator, the
aggregation multiset, and the numeric-operand validation of the parser.
Machine floats are modelled as rationals; Python `None` as `Option.none`.
-/

namespace Mtg

/-- The attribute names of the `ELEMENTS` table in mtg.py (lines 38-58). -/
inductive Attr
  | amount | foil | name | lang | cost | cmc | type | subtype | color
  | identity | text | modern | commander | set | number | rarity
  | fullart | usd | eur
  deriving DecidableEq, Repr

/-- A runtime attribute value: Python number, string, or boolean. -/
inductive Value
  | num (q : ℚ)
  | str (s : String)
  | bool (b : Bool)
  deriving DecidableEq, Repr

/-- One inventory record, with exactly the fields built at mtg.py lines
268-294. `amount` is the quantity (a non-null integer in every record the
program constructs); `subtype`, `usd` and `eur` are the nullable fields. -/
structure Card where
  amount : ℕ
  foil : Bool
  name : String
  lang : String
  cost : String
  cmc : ℤ
  type : String
  subtype : Option String
  color : String
  identity : String
  text : String
  modern : Bool
  commander : Bool
  set : String
  number : String
  rarity : String
  fullart : Bool
  usd : Option ℚ
  eur : Option ℚ
  deriving DecidableEq, Repr

/-- Dictionary access `c[e]` on a card: `none` models Python `None`. -/
def getAttr (c : Card) : Attr → Option Value
  | .amount => some (.num c.amount)
  | .foil => some (.bool c.foil)
  | .name => some (.str c.name)
  | .lang => some (.str c.lang)
  | .cost => some (.str c.cost)
  | .cmc => some (.num c.cmc)
  | .type => some (.str c.type)
  | .subtype => c.subtype.map .str
  | .color => some (.str c.color)
  | .identity => some (.str c.identity)
  | .text => some (.str c.text)
  | .modern => some (.bool c.modern)
  | .commander => some (.bool c.commander)
  | .set => some (.str c.set)
  | .number => some (.str c.number)
  | .rarity => some (.str c.rarity)
  | .fullart => some (.bool c.fullart)
  | .usd => c.usd.map .num
  | .eur => c.eur.map .num

/-- The filter operators of the `FILTERS` table (mtg.py lines 71-80). -/
inductive FilterOp
  | eq | ne | contains | ncontains | lt | le | gt | ge
  deriving DecidableEq, Repr

/-- Python `b in a` on strings (substring test). -/
def strContains (a b : String) : Bool := decide (b.toList <:+: a.toList)

/-- The `filter_map` operator semantics (mtg.py lines 311-320).
Comparisons between values of different runtime types evaluate to `false`
here; the parser's kind checks keep such pairs from ever being applied. -/
def applyOp : FilterOp → Value → Value → Bool
  | .eq, a, b => a == b
  | .ne, a, b => a != b
  | .contains, .str a, .str b => strContains a b
  | .ncontains, .str a, .str b => !strContains a b
  | .lt, .num a, .num b => decide (a < b)
  | .le, .num a, .num b => decide (a ≤ b)
  | .gt, .num a, .num b => decide (a > b)
  | .ge, .num a, .num b => decide (a ≥ b)
  | _, _, _ => false

/-- One entry of the `filters` list: a filtered attribute together with its
ordered list of (operator, operand) alternatives. -/
structure FilterGroup where
  attr : Attr
  pairs : List (FilterOp × Value)
  deriving DecidableEq, Repr

/-- The pre-collapse keep predicate (mtg.py line 330):
`c[e] is not None and any(filter_map[o](c[e], v) for o, v in f)`. -/
def keepPre (g : FilterGroup) (c : Card) : Bool :=
  match getAttr c g.attr with
  | none => false
  | some v => g.pairs.any fun p => applyOp p.1 v p.2

/-- The pre-collapse filter pass (mtg.py lines 322-331): every group is
visited in order, the `amount` group is skipped (`continue`). -/
def preFilter (fs : List FilterGroup) (cards : List Card) : List Card :=
  fs.foldl (fun cs g => if g.attr = Attr.amount then cs else cs.filter (keepPre g)) cards

/-- `all(c[e] == o[e] for e in elements if e != "amount")` (mtg.py line 338). -/
def matchesOn (els : List Attr) (c o : Card) : Bool :=
  els.all fun e => decide (e = Attr.amount) || decide (getAttr c e = getAttr o e)

/-- One collapsed record: the representative card (whose `amount` accumulates
the group's total) and the `_ids` list of member indices. -/
structure CRec where
  card : Card
  ids : List ℕ
  deriving DecidableEq, Repr

/-- One iteration of the collapse loop body (mtg.py lines 335-344): scan the
collapsed list for the first group matching card `c` (index `i`); on a match
add `c`'s amount and record the index, otherwise append a new group. -/
def insertCard (els : List Attr) : List CRec → ℕ → Card → List CRec
  | [], i, c => [⟨c, [i]⟩]
  | o :: rest, i, c =>
    if matchesOn els c o.card then
      ⟨{ o.card with amount := o.card.amount + c.amount }, o.ids ++ [i]⟩ :: rest
    else o :: insertCard els rest i c

/-- The collapse loop (mtg.py lines 333-344), over the enumerated card list. -/
def collapse (els : List Attr) (cards : List Card) : List CRec :=
  cards.enum.foldl (fun acc ic => insertCard els acc ic.1 ic.2) []

/-- The post-collapse keep predicate on a collapsed record (mtg.py line 350):
`any(filter_map[o](c[e], v) for o, v in f)` with `e = "amount"`; note there is
no null check here (a card's amount is never null). -/
def keepAmount (g : FilterGroup) (r : CRec) : Bool :=
  g.pairs.any fun p => applyOp p.1 (Value.num r.card.amount) p.2

/-- One iteration of the post-collapse filter loop (mtg.py lines 347-351):
non-`amount` groups are skipped; an `amount` group filters the collapsed list
and then rebuilds the uncollapsed list from the recorded member indices. -/
def postStep (st : List Card × List CRec) (g : FilterGroup) : List Card × List CRec :=
  if g.attr = Attr.amount then
    let coll := st.2.filter (keepAmount g)
    ((st.1.enum.filter fun ic => coll.any fun d => d.ids.contains ic.1).map Prod.snd, coll)
  else st

/-- The post-collapse amount-filter loop (mtg.py lines 346-351). -/
def postAmount (fs : List FilterGroup) (cards : List Card) (coll : List CRec) :
    List Card × List CRec :=
  fs.foldl postStep (cards, coll)

/-- The filter/collapse pipeline of mtg.py lines 322-351: pre-collapse filter
pass, collapse, post-collapse amount-filter pass. Returns the final
(uncollapsed, collapsed) pair. -/
def pipeline (fs : List FilterGroup) (els : List Attr) (cards : List Card) :
    List Card × List CRec :=
  let cards1 := preFilter fs cards
  postAmount fs cards1 (collapse els cards1)

/-- Python `<` on strings: code-point lexicographic comparison. -/
def ltChars : List Char → List Char → Bool
  | [], [] => false
  | [], _ :: _ => true
  | _ :: _, [] => false
  | a :: as, b :: bs => if a < b then true else if b < a then false else ltChars as bs

/-- Python `<` between two attribute values of the same runtime type
(`False < True` for booleans, code-point lexicographic for strings);
the program never compares values of different types at one attribute. -/
def ltV : Value → Value → Bool
  | .num a, .num b => decide (a < b)
  | .str a, .str b => ltChars a.toList b.toList
  | .bool a, .bool b => !a && b
  | _, _ => false

/-- The sort comparator `cmp` (mtg.py lines 355-368): walk the displayed
attributes in user order; a null sorts before a non-null, two nulls tie,
otherwise Python `<` decides; all ties fall through to the next attribute. -/
def cmp (els : List Attr) (a b : Card) : ℤ :=
  match els with
  | [] => 0
  | e :: rest =>
    match getAttr a e, getAttr b e with
    | none, none => cmp rest a b
    | none, some _ => -1
    | some _, none => 1
    | some x, some y =>
      if ltV x y then -1 else if ltV y x then 1 else cmp rest a b

/-- One attribute step of the comparator, on the two option values. -/
def cmpOV : Option Value → Option Value → ℤ
  | none, none => 0
  | none, some _ => -1
  | some _, none => 1
  | some x, some y => if ltV x y then -1 else if ltV y x then 1 else 0

/-- The verdict of `cmp` on a single attribute, for stating per-attribute
facts about the comparator. -/
def cmpAt (e : Attr) (a b : Card) : ℤ :=
  cmpOV (getAttr a e) (getAttr b e)

/-- The runtime type of a value. -/
inductive VKind
  | num | str | bool
  deriving DecidableEq, Repr

/-- The runtime type tag of a value. -/
def vkind : Value → VKind
  | .num _ => .num
  | .str _ => .str
  | .bool _ => .bool

/-- The runtime type every non-null value of an attribute carries, as fixed
by the record constructor (mtg.py lines 268-294). -/
def kindOf : Attr → VKind
  | .amount | .cmc | .usd | .eur => .num
  | .foil | .modern | .commander | .fullart => .bool
  | _ => .str

/-- `cards.sort(key=cmp_to_key(cmp))` (mtg.py line 371): Python list sort is
a stable sort by the comparator, modelled by `List.mergeSort`. -/
def sortCards (els : List Attr) (cards : List Card) : List Card :=
  cards.mergeSort fun a b => decide (cmp els a b ≤ 0)

/-- `collapsed.sort(key=cmp_to_key(cmp))` (mtg.py line 372); `cmp` reads only
card attributes, so it sorts collapsed records through their cards. -/
def sortCRecs (els : List Attr) (rs : List CRec) : List CRec :=
  rs.mergeSort fun r s => decide (cmp els r.card s.card ≤ 0)

/-- The uncollapsed card list as it stands when statistics are computed
(mtg.py line 371: after both filter passes and the sort). -/
def finalCards (fs : List FilterGroup) (els : List Attr) (cards : List Card) :
    List Card :=
  sortCards els (pipeline fs els cards).1

/-- The collapsed record list after the amount filter and the sort. -/
def finalCollapsed (fs : List FilterGroup) (els : List Attr) (cards : List Card) :
    List CRec :=
  sortCRecs els (pipeline fs els cards).2

/-- The statistic names of the `PREFIXES` table (mtg.py lines 61-68). -/
inductive StatKind
  | total | max | min | avg | median | unique
  deriving DecidableEq, Repr

/-- The `expand` generator (mtg.py lines 403-412): over the uncollapsed card
list, each non-null value repeated `amount` times — except for the `amount`
attribute itself, which yields one value per card. -/
def expand (e : Attr) (cards : List Card) : List Value :=
  if e = Attr.amount then cards.map fun c => Value.num c.amount
  else cards.flatMap fun c =>
    match getAttr c e with
    | none => []
    | some v => List.replicate c.amount v

/-- The expansion multiset as the specification describes it: built from the
COLLAPSED record set (one value per collapsed record for the `amount`
attribute). Written from the spec's words, for comparison with `expand`. -/
def expandSpecCollapsed (e : Attr) (rs : List CRec) : List Value :=
  if e = Attr.amount then rs.map fun r => Value.num r.card.amount
  else rs.flatMap fun r =>
    match getAttr r.card e with
    | none => []
    | some v => List.replicate r.card.amount v

/-- The numeric payloads of a value list (the stat functions only ever see
numeric values, by the parser's kind check on stat requests). -/
def numsOf (vs : List Value) : List ℚ :=
  vs.filterMap fun v => match v with | .num q => some q | _ => none

/-- Python `max(iterable)`: `none` models the `ValueError` raised on an
empty iterable. -/
def listMax : List ℚ → Option ℚ
  | [] => none
  | x :: xs => some (xs.foldl max x)

/-- Python `min(iterable)`: `none` models the `ValueError` on empty input. -/
def listMin : List ℚ → Option ℚ
  | [] => none
  | x :: xs => some (xs.foldl min x)

/-- `statistics.median` on a nonempty list: middle element of the sorted
list, or the mean of the two middle elements. -/
def medianQ (vs : List ℚ) : ℚ :=
  let s := vs.mergeSort fun a b => decide (a ≤ b)
  if vs.length % 2 = 1 then s.getD (vs.length / 2) 0
  else (s.getD (vs.length / 2 - 1) 0 + s.getD (vs.length / 2) 0) / 2

/-- The `stat_map` dispatch (mtg.py lines 417-424) applied to the expanded
numeric multiset. `none` models an exception escaping the program (Python:
`max`/`min` raise `ValueError` and `mean`/`median` raise `StatisticsError`
on empty input); note `sum([])` is `0` and `len(set([]))` is `0`. -/
def runStat : StatKind → List ℚ → Option ℚ
  | .total, vs => some vs.sum
  | .max, vs => listMax vs
  | .min, vs => listMin vs
  | .avg, [] => none
  | .avg, vs => some (vs.sum / vs.length)
  | .median, [] => none
  | .median, vs => some (medianQ vs)
  | .unique, vs => some vs.dedup.length

/-- The grouping attribute set as the specification describes it: displayed
attributes united with the attributes referenced by a stat request. Written
from the spec's words, for comparison with the collapse loop's `elements`. -/
def unionAttrs (els : List Attr) (stats : List (Attr × StatKind)) : List Attr :=
  els ++ stats.map Prod.fst

/-- The numeric-operand check of mtg.py line 111: the regex
`^[0-9]+(.[0-9]+)?$`, in which the dot is UNESCAPED and therefore matches
any single character. A string matches iff it is a nonempty digit string,
or a nonempty digit string, one arbitrary character, and another nonempty
digit string. -/
def numRegexAccepts (v : String) : Bool :=
  let cs := v.toList
  (!cs.isEmpty && cs.all (·.isDigit)) ||
    (List.range cs.length).any fun k =>
      decide (1 ≤ k) && (cs.take k).all (·.isDigit) &&
        !(cs.drop (k + 1)).isEmpty && (cs.drop (k + 1)).all (·.isDigit)

/-- Nonempty all-digit character list. -/
def digitsNonempty (cs : List Char) : Bool := !cs.isEmpty && cs.all (·.isDigit)

/-- Mantissa of a Python float literal: digits, `digits.`, `.digits`, or
`digits.digits`. -/
def mantissaOK (cs : List Char) : Bool :=
  digitsNonempty cs ||
    (List.range cs.length).any fun k =>
      cs.getD k ' ' == '.' && (cs.take k).all (·.isDigit) &&
        (cs.drop (k + 1)).all (·.isDigit) &&
        (!(cs.take k).isEmpty || !(cs.drop (k + 1)).isEmpty)

/-- Exponent part of a Python float literal (after the `e`/`E`). -/
def expPartOK (cs : List Char) : Bool :=
  match cs with
  | '+' :: r => digitsNonempty r
  | '-' :: r => digitsNonempty r
  | r => digitsNonempty r

/-- Whether Python `float(v)` succeeds (mtg.py line 115): models the float
grammar on ordinary decimal literals — optional sign, mantissa, optional
exponent (whitespace, underscores and `inf`/`nan` spellings are omitted; no
input considered here involves them). `false` models an uncaught
`ValueError`. -/
def isPyFloatLit (v : String) : Bool :=
  let cs := v.toList
  let body := match cs with
    | '+' :: r => r
    | '-' :: r => r
    | r => r
  mantissaOK body ||
    (List.range body.length).any fun k =>
      (body.getD k ' ' == 'e' || body.getD k ' ' == 'E') &&
        mantissaOK (body.take k) && expPartOK (body.drop (k + 1))

/-- The malformed-operand reporting loop (mtg.py lines 110-113): the first
operand failing the regex check is reported; `none` means no error raised. -/
def findBadOperand (l : List String) : Option String :=
  l.find? fun v => !numRegexAccepts v

/-- Total quantity held by a collapsed record list. -/
def totCR (rs : List CRec) : ℕ := (rs.map fun r => r.card.amount).sum

/-- Every recorded member index of a collapsed group refers, through the
lookup `f`, to a card that matches the group's representative on the
grouping attributes. -/
def MembersMatch (els : List Attr) (f : ℕ → Option Card) (rs : List CRec) : Prop :=
  ∀ r ∈ rs, ∀ k ∈ r.ids, ∃ ck, f k = some ck ∧ matchesOn els ck r.card = true

/-- A concrete inventory record used in the closed witness and
counterexample statements. -/
def cBase : Card :=
  { amount := 1, foil := false, name := "A", lang := "en", cost := "W", cmc := 1,
    type := "Creature", subtype := none, color := "W", identity := "W",
    text := "", modern := true, commander := true, set := "S", number := "1",
    rarity := "c", fullart := false, usd := none, eur := none }

/-! ### Facts about the grouping predicate `matchesOn` -/

theorem getAttr_setAmount (c : Card) (a : ℕ) (e : Attr) (h : e ≠ Attr.amount) :
    getAttr { c with amount := a } e = getAttr c e := by
  cases e <;> simp_all [getAttr]

theorem matchesOn_iff {els : List Attr} {c o : Card} :
    matchesOn els c o = true ↔
      ∀ e ∈ els, e = Attr.amount ∨ getAttr c e = getAttr o e := by
  simp [matchesOn]

theorem matchesOn_refl (els : List Attr) (c : Card) : matchesOn els c c = true :=
  matchesOn_iff.mpr fun _ _ => Or.inr rfl

theorem matchesOn_symm {els : List Attr} {c o : Card}
    (h : matchesOn els c o = true) : matchesOn els o c = true :=
  matchesOn_iff.mpr fun e he => ((matchesOn_iff.mp h) e he).imp id Eq.symm

theorem matchesOn_trans {els : List Attr} {a b c : Card}
    (h1 : matchesOn els a b = true) (h2 : matchesOn els b c = true) :
    matchesOn els a c = true := by
  refine matchesOn_iff.mpr fun e he => ?_
  rcases (matchesOn_iff.mp h1) e he with h | h
  · exact Or.inl h
  rcases (matchesOn_iff.mp h2) e he with h' | h'
  · exact Or.inl h'
  · exact Or.inr (h.trans h')

theorem matchesOn_setAmount_right (els : List Attr) (c o : Card) (a : ℕ) :
    matchesOn els c { o with amount := a } = matchesOn els c o := by
  unfold matchesOn
  congr 1
  funext e
  by_cases he : e = Attr.amount
  · subst he; simp
  · rw [getAttr_setAmount o a e he]

theorem matchesOn_setAmount_left (els : List Attr) (c o : Card) (a : ℕ) :
    matchesOn els { c with amount := a } o = matchesOn els c o := by
  unfold matchesOn
  congr 1
  funext e
  by_cases he : e = Attr.amount
  · subst he; simp
  · rw [getAttr_setAmount c a e he]

/-! ### Collapse preserves the total quantity -/

theorem insertCard_tot (els : List Attr) (rs : List CRec) (i : ℕ) (c : Card) :
    totCR (insertCard els rs i c) = totCR rs + c.amount := by
  induction rs with
  | nil => simp [insertCard, totCR]
  | cons o rest ih =>
    by_cases h : matchesOn els c o.card
    · simp [insertCard, h, totCR]
      omega
    · simp [insertCard, h, totCR] at ih ⊢
      omega

theorem collapse_foldl_tot (els : List Attr) (l : List (ℕ × Card)) (acc : List CRec) :
    totCR (l.foldl (fun a ic => insertCard els a ic.1 ic.2) acc) =
      totCR acc + (l.map fun ic => ic.2.amount).sum := by
  induction l generalizing acc with
  | nil => simp
  | cons x xs ih =>
    simp only [List.foldl_cons, List.map_cons, List.sum_cons, ih, insertCard_tot]
    omega

/-- C7: for every record set and every grouping attribute set, the quantity
values of the collapsed records sum to the quantity values of the input
records: the collapse loop only ever moves a card's amount into its group. -/
theorem c7_collapse_preserves_total (els : List Attr) (cards : List Card) :
    ((collapse els cards).map fun r => r.card.amount).sum =
      (cards.map fun c => c.amount).sum := by
  have h := collapse_foldl_tot els cards.enum []
  simp only [collapse, totCR, List.map_nil, List.sum_nil, Nat.zero_add] at h ⊢
  rw [h]
  have : (cards.enum.map fun ic => ic.2.amount) =
      (cards.enum.map Prod.snd).map fun c => c.amount := by
    rw [List.map_map]; rfl
  rw [this, List.enum_map_snd]

/-! ### Collapse membership and index bookkeeping -/

theorem insertCard_self_mem (els : List Attr) (rs : List CRec) (i : ℕ) (c : Card) :
    ∃ r ∈ insertCard els rs i c, i ∈ r.ids := by
  induction rs with
  | nil => refine ⟨⟨c, [i]⟩, ?_, ?_⟩ <;> simp [insertCard]
  | cons o rest ih =>
    by_cases h : matchesOn els c o.card
    · refine ⟨⟨{ o.card with amount := o.card.amount + c.amount }, o.ids ++ [i]⟩, ?_, ?_⟩
      · simp [insertCard, h]
      · simp
    · obtain ⟨r, hr, hir⟩ := ih
      exact ⟨r, by simp [insertCard, h, hr], hir⟩

theorem insertCard_mono (els : List Attr) (rs : List CRec) (i k : ℕ) (c : Card)
    (h : ∃ r ∈ rs, k ∈ r.ids) : ∃ r ∈ insertCard els rs i c, k ∈ r.ids := by
  induction rs with
  | nil => simp at h
  | cons o rest ih =>
    obtain ⟨r, hr, hkr⟩ := h
    by_cases hm : matchesOn els c o.card
    · rcases List.mem_cons.mp hr with rfl | hr'
      · refine ⟨⟨{ r.card with amount := r.card.amount + c.amount }, r.ids ++ [i]⟩, ?_, ?_⟩
        · simp [insertCard, hm]
        · simp [hkr]
      · exact ⟨r, by simp [insertCard, hm, hr'], hkr⟩
    · rcases List.mem_cons.mp hr with rfl | hr'
      · exact ⟨r, by simp [insertCard, hm], hkr⟩
      · obtain ⟨r', hr'', hkr'⟩ := ih ⟨r, hr', hkr⟩
        exact ⟨r', by simp [insertCard, hm, hr''], hkr'⟩

theorem collapse_foldl_mono (els : List Attr) (l : List (ℕ × Card)) (acc : List CRec)
    (k : ℕ) (h : ∃ r ∈ acc, k ∈ r.ids) :
    ∃ r ∈ l.foldl (fun a ic => insertCard els a ic.1 ic.2) acc, k ∈ r.ids := by
  induction l generalizing acc with
  | nil => simpa using h
  | cons x xs ih => exact ih _ (insertCard_mono els acc x.1 k x.2 h)

theorem collapse_foldl_covers (els : List Attr) (l : List (ℕ × Card)) (acc : List CRec)
    (i : ℕ) (c : Card) (h : (i, c) ∈ l) :
    ∃ r ∈ l.foldl (fun a ic => insertCard els a ic.1 ic.2) acc, i ∈ r.ids := by
  induction l generalizing acc with
  | nil => simp at h
  | cons x xs ih =>
    rcases List.mem_cons.mp h with rfl | h'
    · exact collapse_foldl_mono els xs _ i (insertCard_self_mem els acc i c)
    · exact ih _ h'

/-- Every index of the input card list lands in the `_ids` of some collapsed
record. -/
theorem collapse_covers (els : List Attr) (cards : List Card) (i : ℕ) (c : Card)
    (h : cards[i]? = some c) : ∃ r ∈ collapse els cards, i ∈ r.ids :=
  collapse_foldl_covers els cards.enum [] i c (List.mk_mem_enum_iff_getElem?.mpr h)

theorem insertCard_members (els : List Attr) (f : ℕ → Option Card) (rs : List CRec)
    (i : ℕ) (c : Card) (hf : f i = some c) (h : MembersMatch els f rs) :
    MembersMatch els f (insertCard els rs i c) := by
  induction rs with
  | nil =>
    intro r hr k hk
    simp only [insertCard, List.mem_singleton] at hr
    subst hr
    simp only [List.mem_singleton] at hk
    subst hk
    exact ⟨c, hf, matchesOn_refl els c⟩
  | cons o rest ih =>
    by_cases hm : matchesOn els c o.card
    · intro r hr k hk
      simp only [insertCard, if_pos hm, List.mem_cons] at hr
      rcases hr with rfl | hr'
      · rcases List.mem_append.mp hk with hko | hki
        · obtain ⟨ck, hfk, hmk⟩ := h o (by simp) k hko
          exact ⟨ck, hfk, by rwa [matchesOn_setAmount_right]⟩
        · simp only [List.mem_singleton] at hki
          subst hki
          exact ⟨c, hf, by rw [matchesOn_setAmount_right]; exact hm⟩
      · exact h r (by simp [hr']) k hk
    · intro r hr k hk
      simp only [insertCard, if_neg hm, List.mem_cons] at hr
      rcases hr with rfl | hr'
      · exact h r (by simp) k hk
      · exact ih (fun r' hr'' k' hk' => h r' (by simp [hr'']) k' hk') r hr' k hk

theorem collapse_foldl_members (els : List Attr) (f : ℕ → Option Card)
    (l : List (ℕ × Card)) (acc : List CRec)
    (hl : ∀ ic ∈ l, f ic.1 = some ic.2) (hacc : MembersMatch els f acc) :
    MembersMatch els f (l.foldl (fun a ic => insertCard els a ic.1 ic.2) acc) := by
  induction l generalizing acc with
  | nil => simpa using hacc
  | cons x xs ih =>
    exact ih _ (fun ic hic => hl ic (by simp [hic]))
      (insertCard_members els f acc x.1 x.2 (hl x (by simp)) hacc)

theorem collapse_members (els : List Attr) (cards : List Card) :
    MembersMatch els (fun k => cards[k]?) (collapse els cards) := by
  apply collapse_foldl_members
  · rintro ⟨i, c⟩ hic
    exact List.mk_mem_enum_iff_getElem?.mp hic
  · intro r hr
    simp at hr

theorem insertCard_mem_card (els : List Attr) (rs : List CRec) (i : ℕ) (c : Card)
    (r' : CRec) (h : r' ∈ insertCard els rs i c) :
    (∃ r ∈ rs, r'.card = r.card ∨ ∃ a, r'.card = { r.card with amount := a }) ∨
      r'.card = c := by
  induction rs with
  | nil =>
    simp only [insertCard, List.mem_singleton] at h
    subst h
    exact Or.inr rfl
  | cons o rest ih =>
    by_cases hm : matchesOn els c o.card
    · simp only [insertCard, if_pos hm, List.mem_cons] at h
      rcases h with rfl | h'
      · exact Or.inl ⟨o, by simp, Or.inr ⟨_, rfl⟩⟩
      · exact Or.inl ⟨r', by simp [h'], Or.inl rfl⟩
    · simp only [insertCard, if_neg hm, List.mem_cons] at h
      rcases h with rfl | h'
      · exact Or.inl ⟨r', by simp, Or.inl rfl⟩
      · rcases ih h' with ⟨r, hr, hcase⟩ | hc
        · exact Or.inl ⟨r, by simp [hr], hcase⟩
        · exact Or.inr hc

theorem insertCard_pairwise (els : List Attr) (rs : List CRec) (i : ℕ) (c : Card)
    (h : rs.Pairwise fun r s => matchesOn els r.card s.card = false) :
    (insertCard els rs i c).Pairwise fun r s => matchesOn els r.card s.card = false := by
  induction rs with
  | nil => simp [insertCard]
  | cons o rest ih =>
    rw [List.pairwise_cons] at h
    obtain ⟨ho, hrest⟩ := h
    by_cases hm : matchesOn els c o.card
    · simp only [insertCard, if_pos hm]
      rw [List.pairwise_cons]
      refine ⟨fun s hs => ?_, hrest⟩
      rw [matchesOn_setAmount_left]
      exact ho s hs
    · simp only [insertCard, if_neg hm]
      rw [List.pairwise_cons]
      refine ⟨fun s hs => ?_, ih hrest⟩
      rcases insertCard_mem_card els rest i c s hs with ⟨r, hr, hcase⟩ | hc
      · rcases hcase with heq | ⟨a, heq⟩
        · rw [heq]; exact ho r hr
        · rw [heq, matchesOn_setAmount_right]; exact ho r hr
      · rw [hc]
        apply Bool.eq_false_iff.mpr
        intro htrue
        exact hm (matchesOn_symm htrue)

/-- Distinct collapsed groups always differ on some displayed attribute. -/
theorem collapse_pairwise (els : List Attr) (cards : List Card) :
    (collapse els cards).Pairwise fun r s => matchesOn els r.card s.card = false := by
  have key : ∀ (l : List (ℕ × Card)) (acc : List CRec),
      acc.Pairwise (fun r s => matchesOn els r.card s.card = false) →
      (l.foldl (fun a ic => insertCard els a ic.1 ic.2) acc).Pairwise
        fun r s => matchesOn els r.card s.card = false := by
    intro l
    induction l with
    | nil => intro acc h; simpa using h
    | cons x xs ih => intro acc h; exact ih _ (insertCard_pairwise els acc x.1 x.2 h)
  exact key cards.enum [] (by simp)

/-- C1 (counterexample): the claim states that the collapse step merges two
records exactly when they are equal on every attribute of the union of the
displayed attributes and the stat-referenced attributes. In the code the
grouping set is only the displayed `elements` list: with display `[name]`
and a stat request on `usd`, two records that agree on `name` but differ on
`usd` — an attribute of that union — are nevertheless merged into a single
collapsed record. -/
theorem c1_counterexample :
    (collapse [Attr.name]
        [{ cBase with usd := some 1 }, { cBase with usd := some 2 }]).length = 1 ∧
      Attr.usd ∈ unionAttrs [Attr.name] [(Attr.usd, StatKind.total)] ∧
      Attr.usd ≠ Attr.amount ∧
      getAttr { cBase with usd := some 1 } Attr.usd ≠
        getAttr { cBase with usd := some 2 } Attr.usd := by
  refine ⟨?_, ?_, ?_, ?_⟩ <;> decide

/-- C1 (amended): the collapse step merges two records into one exactly when
they are equal on every DISPLAYED attribute (the `elements` list) excluding
the quantity attribute — attributes referenced only by a stat request play
no part — and every pair of distinct records in the collapsed output is
distinguished by some displayed attribute. -/
theorem c1_grouping_by_displayed_attrs (els : List Attr) (cards : List Card)
    (i j : ℕ) (ci cj : Card) (hi : cards[i]? = some ci) (hj : cards[j]? = some cj) :
    ((∃ r ∈ collapse els cards, i ∈ r.ids ∧ j ∈ r.ids) ↔ matchesOn els ci cj = true) ∧
      (collapse els cards).Pairwise fun r s => matchesOn els r.card s.card = false := by
  refine ⟨⟨?_, ?_⟩, collapse_pairwise els cards⟩
  · rintro ⟨r, hr, hir, hjr⟩
    obtain ⟨ci', hfi, hmi⟩ := collapse_members els cards r hr i hir
    obtain ⟨cj', hfj, hmj⟩ := collapse_members els cards r hr j hjr
    obtain rfl : ci = ci' := by
      have h' : cards[i]? = some ci' := hfi
      rw [hi] at h'
      exact Option.some.inj h'
    obtain rfl : cj = cj' := by
      have h' : cards[j]? = some cj' := hfj
      rw [hj] at h'
      exact Option.some.inj h'
    exact matchesOn_trans hmi (matchesOn_symm hmj)
  · intro hm
    obtain ⟨r, hr, hir⟩ := collapse_covers els cards i ci hi
    obtain ⟨r', hr', hjr⟩ := collapse_covers els cards j cj hj
    obtain ⟨ci', hfi, hmi⟩ := collapse_members els cards r hr i hir
    obtain ⟨cj', hfj, hmj⟩ := collapse_members els cards r' hr' j hjr
    obtain rfl : ci = ci' := by
      have h' : cards[i]? = some ci' := hfi
      rw [hi] at h'
      exact Option.some.inj h'
    obtain rfl : cj = cj' := by
      have h' : cards[j]? = some cj' := hfj
      rw [hj] at h'
      exact Option.some.inj h'
    by_cases heq : r = r'
    · subst heq
      exact ⟨r, hr, hir, hjr⟩
    · have hrr' : matchesOn els r.card r'.card = true :=
        matchesOn_trans (matchesOn_symm hmi) (matchesOn_trans hm hmj)
      have hsym : Symmetric fun r s : CRec => matchesOn els r.card s.card = false := by
        intro a b hab
        apply Bool.eq_false_iff.mpr
        intro ht
        exact Bool.eq_false_iff.mp hab (matchesOn_symm ht)
      have hfalse := List.Pairwise.forall hsym (collapse_pairwise els cards) hr hr' heq
      rw [hfalse] at hrr'
      simp at hrr'

/-- Closed witness for C1's amended theorem: two concrete records that agree
on the single displayed attribute are placed in the same collapsed group. -/
theorem c1_grouping_by_displayed_attrs_witness :
    ∃ r ∈ collapse [Attr.name]
        [{ cBase with usd := some 1 }, { cBase with usd := some 2 }],
      0 ∈ r.ids ∧ 1 ∈ r.ids :=
  ((c1_grouping_by_displayed_attrs [Attr.name]
      [{ cBase with usd := some 1 }, { cBase with usd := some 2 }] 0 1
      { cBase with usd := some 1 } { cBase with usd := some 2 } rfl rfl).1).mpr
    (by decide)

/-! ### The two filter passes -/

theorem preFilter_nonquantity_only (fs : List FilterGroup) (cards : List Card) :
    preFilter fs cards =
      (fs.filter fun g => !decide (g.attr = Attr.amount)).foldl
        (fun cs g => cs.filter (keepPre g)) cards := by
  induction fs generalizing cards with
  | nil => rfl
  | cons g gs ih =>
    by_cases hg : g.attr = Attr.amount
    · show preFilter gs (if g.attr = Attr.amount then cards else cards.filter (keepPre g)) = _
      rw [if_pos hg]
      simp only [List.filter_cons, decide_eq_true hg, Bool.not_true, Bool.false_eq_true,
        if_false]
      exact ih cards
    · show preFilter gs (if g.attr = Attr.amount then cards else cards.filter (keepPre g)) = _
      rw [if_neg hg]
      simp only [List.filter_cons, decide_eq_false hg, Bool.not_false, if_true]
      exact ih (cards.filter (keepPre g))

theorem postStep_fold_quantity_only (fs : List FilterGroup)
    (st : List Card × List CRec) :
    fs.foldl postStep st =
      (fs.filter fun g => decide (g.attr = Attr.amount)).foldl postStep st := by
  induction fs generalizing st with
  | nil => rfl
  | cons g gs ih =>
    by_cases hg : g.attr = Attr.amount
    · simp only [List.foldl_cons, List.filter_cons, decide_eq_true hg, if_true]
      exact ih (postStep st g)
    · have hid : postStep st g = st := by simp [postStep, hg]
      simp only [List.foldl_cons, List.filter_cons, decide_eq_false hg, Bool.false_eq_true,
        if_false, hid]
      exact ih st

/-- C2: filtering runs in exactly two passes around the collapse step. The
pre-collapse pass applies precisely the filter groups on non-quantity
attributes, and the post-collapse pass applies precisely the quantity
attribute's filter groups; neither pass touches the other kind. -/
theorem c2_two_pass_filtering (fs : List FilterGroup) (cards : List Card)
    (coll : List CRec) :
    preFilter fs cards =
      (fs.filter fun g => !decide (g.attr = Attr.amount)).foldl
        (fun cs g => cs.filter (keepPre g)) cards ∧
      postAmount fs cards coll =
        (fs.filter fun g => decide (g.attr = Attr.amount)).foldl postStep
          (cards, coll) :=
  ⟨preFilter_nonquantity_only fs cards, postStep_fold_quantity_only fs (cards, coll)⟩

/-! ### Consistency of the two lists after the amount filter -/

/-- C10 (amended): provided the query contains at most one quantity filter
group, then after the post-collapse quantity filter the uncollapsed working
list consists of exactly those collapse-time cards whose index belongs to
the recorded member-index set of some surviving collapsed record. With two
or more quantity groups the second pass re-enumerates the already shrunken
card list against collapse-time indices and the consistency breaks. -/
theorem c10_consistency_single_amount_filter (fs : List FilterGroup)
    (els : List Attr) (cards : List Card)
    (h1 : (fs.filter fun g => decide (g.attr = Attr.amount)).length ≤ 1) :
    (pipeline fs els cards).1 =
      ((preFilter fs cards).enum.filter fun ic =>
        (pipeline fs els cards).2.any fun d => d.ids.contains ic.1).map Prod.snd := by
  have hpost : pipeline fs els cards =
      (fs.filter fun g => decide (g.attr = Attr.amount)).foldl postStep
        (preFilter fs cards, collapse els (preFilter fs cards)) :=
    postStep_fold_quantity_only fs _
  rcases hfs : fs.filter fun g => decide (g.attr = Attr.amount) with _ | ⟨g, rest⟩
  · rw [hpost, hfs]
    simp only [List.foldl_nil]
    have hall : ∀ ic ∈ (preFilter fs cards).enum,
        ((collapse els (preFilter fs cards)).any fun d => d.ids.contains ic.1) = true := by
      rintro ⟨i, c⟩ hic
      obtain ⟨r, hr, hir⟩ :=
        collapse_covers els (preFilter fs cards) i c (List.mk_mem_enum_iff_getElem?.mp hic)
      exact List.any_eq_true.mpr ⟨r, hr, List.elem_iff.mpr hir⟩
    rw [List.filter_eq_self.mpr hall, List.enum_map_snd]
  · have hrest : rest = [] := by
      rw [hfs] at h1
      simp only [List.length_cons] at h1
      exact List.eq_nil_of_length_eq_zero (by omega)
    subst hrest
    have hg : g.attr = Attr.amount := by
      have hmem : g ∈ fs.filter fun g => decide (g.attr = Attr.amount) := by
        rw [hfs]; exact List.mem_singleton_self g
      exact of_decide_eq_true (List.mem_filter.mp hmem).2
    rw [hpost, hfs]
    simp only [List.foldl_cons, List.foldl_nil]
    simp [postStep, hg]

/-- Closed witness for C10's amended theorem, at a query with one quantity
filter group over two records that collapse into distinct groups. -/
theorem c10_consistency_single_amount_filter_witness :
    (pipeline [⟨Attr.amount, [(FilterOp.gt, Value.num 2)]⟩] [Attr.name]
        [cBase, { cBase with name := "B", amount := 5 }]).1 =
      ((preFilter [⟨Attr.amount, [(FilterOp.gt, Value.num 2)]⟩]
          [cBase, { cBase with name := "B", amount := 5 }]).enum.filter fun ic =>
        (pipeline [⟨Attr.amount, [(FilterOp.gt, Value.num 2)]⟩] [Attr.name]
            [cBase, { cBase with name := "B", amount := 5 }]).2.any fun d =>
          d.ids.contains ic.1).map Prod.snd :=
  c10_consistency_single_amount_filter
    [⟨Attr.amount, [(FilterOp.gt, Value.num 2)]⟩] [Attr.name]
    [cBase, { cBase with name := "B", amount := 5 }] (by decide)

/-- C10 (counterexample): with TWO quantity filter groups (`amount > 2` then
`amount > 0`) over two records in distinct collapse groups, the second pass
re-indexes the shrunken card list against collapse-time indices: the final
card list is empty even though the surviving collapsed record passed both
filters and still records member index 1 — the claimed iff fails. -/
theorem c10_counterexample :
    (pipeline
        [⟨Attr.amount, [(FilterOp.gt, Value.num 2)]⟩,
          ⟨Attr.amount, [(FilterOp.gt, Value.num 0)]⟩] [Attr.name]
        [cBase, { cBase with name := "B", amount := 5 }]).1 = [] ∧
      ((pipeline
          [⟨Attr.amount, [(FilterOp.gt, Value.num 2)]⟩,
            ⟨Attr.amount, [(FilterOp.gt, Value.num 0)]⟩] [Attr.name]
          [cBase, { cBase with name := "B", amount := 5 }]).2.any fun d =>
        d.ids.contains 1) = true ∧
      [cBase, { cBase with name := "B", amount := 5 }][1]? =
        some { cBase with name := "B", amount := 5 } := by
  refine ⟨?_, ?_, ?_⟩ <;> decide

/-! ### Lawfulness of the value order underlying the comparator -/

theorem ltChars_irrefl (as : List Char) : ltChars as as = false := by
  induction as with
  | nil => rfl
  | cons a as ih => simp [ltChars, ih]

theorem ltChars_asymm {as bs : List Char} (h : ltChars as bs = true) :
    ltChars bs as = false := by
  induction as generalizing bs with
  | nil =>
    cases bs with
    | nil => simp [ltChars] at h
    | cons b bs => simp [ltChars]
  | cons a as ih =>
    cases bs with
    | nil => simp [ltChars] at h
    | cons b bs =>
      simp only [ltChars] at h ⊢
      rcases lt_trichotomy a b with hab | hab | hab
      · simp [hab, not_lt_of_gt hab]
      · subst hab
        simp only [lt_irrefl, if_false] at h ⊢
        exact ih h
      · simp [hab, not_lt_of_gt hab] at h

theorem ltChars_trans {as bs cs : List Char} (h1 : ltChars as bs = true)
    (h2 : ltChars bs cs = true) : ltChars as cs = true := by
  induction as generalizing bs cs with
  | nil =>
    cases cs with
    | nil =>
      cases bs with
      | nil => simp [ltChars] at h1
      | cons b bs => simp [ltChars] at h2
    | cons c cs => simp [ltChars]
  | cons a as ih =>
    cases bs with
    | nil => simp [ltChars] at h1
    | cons b bs =>
      cases cs with
      | nil => simp [ltChars] at h2
      | cons c cs =>
        simp only [ltChars] at h1 h2 ⊢
        rcases lt_trichotomy a b with hab | hab | hab
        · rcases lt_trichotomy b c with hbc | hbc | hbc
          · simp [lt_trans hab hbc]
          · subst hbc; simp [hab]
          · simp [hbc, not_lt_of_gt hbc] at h2
        · subst hab
          rcases lt_trichotomy a c with hac | hac | hac
          · simp [hac]
          · subst hac
            simp only [lt_irrefl, if_false] at h1 h2 ⊢
            exact ih h1 h2
          · simp [hac, not_lt_of_gt hac] at h2
        · simp [hab, not_lt_of_gt hab] at h1

theorem ltChars_eq_of_not {as bs : List Char} (h1 : ltChars as bs = false)
    (h2 : ltChars bs as = false) : as = bs := by
  induction as generalizing bs with
  | nil =>
    cases bs with
    | nil => rfl
    | cons b bs => simp [ltChars] at h1
  | cons a as ih =>
    cases bs with
    | nil => simp [ltChars] at h2
    | cons b bs =>
      simp only [ltChars] at h1 h2
      rcases lt_trichotomy a b with hab | hab | hab
      · simp [hab] at h1
      · subst hab
        simp only [lt_irrefl, if_false] at h1 h2
        rw [ih h1 h2]
      · simp [hab] at h2

theorem ltV_irrefl (x : Value) : ltV x x = false := by
  cases x with
  | num q => simp [ltV]
  | str s => simp [ltV, ltChars_irrefl]
  | bool b => cases b <;> simp [ltV]

theorem ltV_asymm {x y : Value} (h : ltV x y = true) : ltV y x = false := by
  cases x <;> cases y <;> simp_all [ltV]
  case num.num => exact le_of_lt h
  case str.str => exact ltChars_asymm h

theorem ltV_trans {x y z : Value} (h1 : ltV x y = true) (h2 : ltV y z = true) :
    ltV x z = true := by
  cases x <;> cases y <;> cases z <;> simp_all [ltV]
  case num.num.num => exact lt_trans h1 h2
  case str.str.str => exact ltChars_trans h1 h2

theorem ltV_eq_of_not {x y : Value} (hk : vkind x = vkind y)
    (h1 : ltV x y = false) (h2 : ltV y x = false) : x = y := by
  cases x <;> cases y <;> simp_all [ltV, vkind]
  case num.num => exact le_antisymm h2 h1
  case str.str =>
    rename_i s t
    have hst : s.toList = t.toList := ltChars_eq_of_not h1 h2
    exact String.toList_inj.mp hst
  case bool.bool =>
    rename_i a b
    cases a <;> cases b <;> simp_all

theorem getAttr_kind {c : Card} {e : Attr} {v : Value}
    (h : getAttr c e = some v) : vkind v = kindOf e := by
  cases e <;>
      simp only [getAttr, Option.map_eq_some', Option.some.injEq] at h <;>
    try { subst h; rfl }
  case subtype =>
    obtain ⟨s, _, hv⟩ := h
    subst hv; rfl
  case usd =>
    obtain ⟨q, _, hv⟩ := h
    subst hv; rfl
  case eur =>
    obtain ⟨q, _, hv⟩ := h
    subst hv; rfl

/-! ### Structure of the comparator -/

theorem cmp_cons (e : Attr) (rest : List Attr) (a b : Card) :
    cmp (e :: rest) a b =
      if cmpAt e a b = 0 then cmp rest a b else cmpAt e a b := by
  have hdef : cmp (e :: rest) a b =
      match getAttr a e, getAttr b e with
      | none, none => cmp rest a b
      | none, some _ => -1
      | some _, none => 1
      | some x, some y =>
        if ltV x y then -1 else if ltV y x then 1 else cmp rest a b := rfl
  rw [hdef]
  unfold cmpAt cmpOV
  rcases getAttr a e with _ | x <;> rcases getAttr b e with _ | y
  · simp
  · simp
  · simp
  · by_cases hxy : ltV x y
    · simp [hxy]
    · by_cases hyx : ltV y x
      · simp [hxy, hyx]
      · simp [hxy, hyx]

theorem cmpAt_mem (e : Attr) (a b : Card) :
    cmpAt e a b = -1 ∨ cmpAt e a b = 0 ∨ cmpAt e a b = 1 := by
  unfold cmpAt cmpOV
  rcases getAttr a e with _ | x <;> rcases getAttr b e with _ | y <;> simp
  by_cases hxy : ltV x y
  · simp [hxy]
  · by_cases hyx : ltV y x <;> simp [hxy, hyx]

theorem cmpAt_swap (e : Attr) (a b : Card) : cmpAt e b a = -cmpAt e a b := by
  unfold cmpAt cmpOV
  rcases getAttr a e with _ | x <;> rcases getAttr b e with _ | y <;> try simp
  by_cases hxy : ltV x y
  · simp [hxy, ltV_asymm hxy]
  · by_cases hyx : ltV y x <;> simp [hxy, hyx]

theorem cmpAt_eq_zero_iff {e : Attr} {a b : Card} :
    cmpAt e a b = 0 ↔ getAttr a e = getAttr b e := by
  unfold cmpAt cmpOV
  rcases ha : getAttr a e with _ | x <;> rcases hb : getAttr b e with _ | y <;> simp
  constructor
  · intro h
    by_cases hxy : ltV x y
    · simp [hxy] at h
    · by_cases hyx : ltV y x
      · simp [hxy, hyx] at h
      · exact ltV_eq_of_not ((getAttr_kind ha).trans (getAttr_kind hb).symm)
          (Bool.not_eq_true _ ▸ hxy) (Bool.not_eq_true _ ▸ hyx)
  · rintro rfl
    simp [ltV_irrefl]

theorem cmpOV_neg_trans {x y z : Option Value} (h1 : cmpOV x y = -1)
    (h2 : cmpOV y z = -1) : cmpOV x z = -1 := by
  rcases x with _ | vx <;> rcases y with _ | vy <;> rcases z with _ | vz <;>
      simp only [cmpOV] at h1 h2 ⊢ <;>
    try omega
  by_cases hxy : ltV vx vy
  · by_cases hyz : ltV vy vz
    · simp [ltV_trans hxy hyz]
    · by_cases hzy : ltV vz vy <;> simp [hyz, hzy] at h2
  · by_cases hyx : ltV vy vx <;> simp [hxy, hyx] at h1

theorem cmpAt_neg_trans {e : Attr} {a b c : Card} (h1 : cmpAt e a b = -1)
    (h2 : cmpAt e b c = -1) : cmpAt e a c = -1 :=
  cmpOV_neg_trans h1 h2

theorem cmp_append_zero (pre l : List Attr) (a b : Card)
    (hpre : ∀ x ∈ pre, cmpAt x a b = 0) :
    cmp (pre ++ l) a b = cmp l a b := by
  induction pre with
  | nil => rfl
  | cons e rest ih =>
    rw [List.cons_append, cmp_cons, if_pos (hpre e (by simp))]
    exact ih fun x hx => hpre x (by simp [hx])

theorem cmp_swap (els : List Attr) (a b : Card) : cmp els b a = -cmp els a b := by
  induction els with
  | nil => rfl
  | cons e rest ih =>
    rw [cmp_cons, cmp_cons, cmpAt_swap]
    by_cases h : cmpAt e a b = 0
    · rw [h]
      simp [ih]
    · rw [if_neg h, if_neg (by omega : ¬(-cmpAt e a b = 0))]

theorem cmp_le_trans (els : List Attr) {a b c : Card} (h1 : cmp els a b ≤ 0)
    (h2 : cmp els b c ≤ 0) : cmp els a c ≤ 0 := by
  induction els with
  | nil => simp [cmp]
  | cons e r ih =>
    rw [cmp_cons] at h1 h2 ⊢
    by_cases hu : cmpAt e a b = 0
    · have hab := cmpAt_eq_zero_iff.mp hu
      have hac : cmpAt e a c = cmpAt e b c := by
        unfold cmpAt
        rw [hab]
      rw [if_pos hu] at h1
      by_cases hv : cmpAt e b c = 0
      · rw [if_pos hv] at h2
        rw [hac, if_pos hv]
        exact ih h1 h2
      · rw [if_neg hv] at h2
        rw [hac, if_neg hv]
        exact h2
    · rw [if_neg hu] at h1
      have hu1 : cmpAt e a b = -1 := by
        rcases cmpAt_mem e a b with h | h | h <;> omega
      by_cases hv : cmpAt e b c = 0
      · have hbc := cmpAt_eq_zero_iff.mp hv
        have hac : cmpAt e a c = cmpAt e a b := by
          unfold cmpAt
          rw [hbc]
        rw [hac, hu1]
        norm_num
      · rw [if_neg hv] at h2
        have hv1 : cmpAt e b c = -1 := by
          rcases cmpAt_mem e b c with h | h | h <;> omega
        rw [cmpAt_neg_trans hu1 hv1]
        norm_num

/-- C6: in the sort comparator, whenever the first displayed attribute (in
user order) on which the two records differ holds null in one record and a
non-null value in the other, the null record compares first (`-1`, and `1`
with the arguments swapped), whatever the attribute's kind; and when both
records hold null on an attribute it counts as a tie and the comparison
falls through to the remaining displayed attributes. -/
theorem c6_null_sorts_first (pre rest : List Attr) (e : Attr) (a b : Card)
    (hpre : ∀ x ∈ pre, cmpAt x a b = 0) :
    (getAttr a e = none → (getAttr b e).isSome →
      cmp (pre ++ e :: rest) a b = -1 ∧ cmp (pre ++ e :: rest) b a = 1) ∧
      (getAttr a e = none → getAttr b e = none →
        cmp (pre ++ e :: rest) a b = cmp rest a b) := by
  have hswap : ∀ x ∈ pre, cmpAt x b a = 0 := fun x hx => by
    rw [cmpAt_swap, hpre x hx]
    rfl
  constructor
  · intro ha hb
    obtain ⟨v, hv⟩ := Option.isSome_iff_exists.mp hb
    have hab : cmpAt e a b = -1 := by
      unfold cmpAt
      rw [ha, hv]
      rfl
    constructor
    · rw [cmp_append_zero pre _ a b hpre, cmp_cons, hab]
      norm_num
    · rw [cmp_append_zero pre _ b a hswap, cmp_cons, cmpAt_swap, hab]
      norm_num
  · intro ha hb
    have hab : cmpAt e a b = 0 := by
      unfold cmpAt
      rw [ha, hb]
      rfl
    rw [cmp_append_zero pre _ a b hpre, cmp_cons, hab]
    simp

/-- Closed witness for C6: with display `[name, usd]`, two records that tie
on `name` while one has a null `usd` and the other `usd = 3`: the null
record sorts first. -/
theorem c6_null_sorts_first_witness :
    cmp [Attr.name, Attr.usd] cBase { cBase with usd := some 3 } = -1 ∧
      cmp [Attr.name, Attr.usd] { cBase with usd := some 3 } cBase = 1 :=
  (c6_null_sorts_first [Attr.name] [] Attr.usd cBase { cBase with usd := some 3 }
      (by decide)).1 rfl rfl

/-- C8: sorting is total and stable — sorting twice equals sorting once;
two records that tie on every displayed attribute keep their original
relative order (as a pair they remain a sublist of the output); and with no
displayed attributes the sort leaves the list unchanged. -/
theorem c8_sort_total_stable (els : List Attr) (l : List Card) :
    sortCards els (sortCards els l) = sortCards els l ∧
      (∀ a b : Card, cmp els a b = 0 → List.Sublist [a, b] l →
        List.Sublist [a, b] (sortCards els l)) ∧
      sortCards [] l = l := by
  have htrans : ∀ x y z : Card, (fun p q => decide (cmp els p q ≤ 0)) x y →
      (fun p q => decide (cmp els p q ≤ 0)) y z →
      (fun p q => decide (cmp els p q ≤ 0)) x z := by
    intro x y z h1 h2
    simp only [decide_eq_true_eq] at *
    exact cmp_le_trans els h1 h2
  have htotal : ∀ x y : Card, ((fun p q => decide (cmp els p q ≤ 0)) x y ||
      (fun p q => decide (cmp els p q ≤ 0)) y x) = true := by
    intro x y
    simp only [Bool.or_eq_true, decide_eq_true_eq]
    have := cmp_swap els x y
    omega
  refine ⟨?_, ?_, ?_⟩
  · exact List.mergeSort_of_sorted (List.sorted_mergeSort htrans htotal l)
  · intro a b h0 hsub
    apply List.pair_sublist_mergeSort htrans htotal _ hsub
    simp only [decide_eq_true_eq]
    omega
  · apply List.mergeSort_of_sorted
    induction l with
    | nil => exact List.Pairwise.nil
    | cons x xs ih => exact List.Pairwise.cons (fun y _ => by simp [cmp]) ih

/-- Closed witness for C8 at a two-record list tying on the displayed
attribute. -/
theorem c8_sort_total_stable_witness :
    sortCards [Attr.name] (sortCards [Attr.name] [cBase, { cBase with text := "t" }]) =
        sortCards [Attr.name] [cBase, { cBase with text := "t" }] ∧
      List.Sublist [cBase, { cBase with text := "t" }]
        (sortCards [Attr.name] [cBase, { cBase with text := "t" }]) ∧
      sortCards [] [cBase, { cBase with text := "t" }] =
        [cBase, { cBase with text := "t" }] :=
  ⟨(c8_sort_total_stable [Attr.name] [cBase, { cBase with text := "t" }]).1,
    (c8_sort_total_stable [Attr.name] [cBase, { cBase with text := "t" }]).2.1
      cBase { cBase with text := "t" } (by decide) (List.Sublist.refl _),
    (c8_sort_total_stable [Attr.name] [cBase, { cBase with text := "t" }]).2.2⟩

/-! ### Aggregation -/

theorem sortCards_of_sorted {els : List Attr} {l : List Card}
    (h : l.Pairwise fun a b => decide (cmp els a b ≤ 0) = true) :
    sortCards els l = l :=
  List.mergeSort_of_sorted h

theorem sortCRecs_of_sorted {els : List Attr} {l : List CRec}
    (h : l.Pairwise fun r s => decide (cmp els r.card s.card ≤ 0) = true) :
    sortCRecs els l = l :=
  List.mergeSort_of_sorted h

/-- C3 (amended): every aggregate statistic is computed over the expansion
multiset built from the UNCOLLAPSED (filtered) card list, not the collapsed
record set: for a non-quantity attribute each value occurs once per unit of
quantity summed over the cards holding it, records with a null value
contributing nothing; for the quantity attribute the multiset holds exactly
one value per card of the uncollapsed list (not expanded). -/
theorem c3_expansion_over_uncollapsed (e : Attr) (cards : List Card) :
    (e ≠ Attr.amount → ∀ v : Value,
      (expand e cards).count v =
        (cards.map fun c => if getAttr c e = some v then c.amount else 0).sum) ∧
      expand Attr.amount cards = cards.map fun c => Value.num c.amount := by
  constructor
  · intro he v
    induction cards with
    | nil => simp [expand, he]
    | cons c cs ih =>
      simp only [expand, if_neg he] at ih ⊢
      rw [List.flatMap_cons, List.count_append, List.map_cons, List.sum_cons, ih]
      congr 1
      rcases hg : getAttr c e with _ | w
      · simp [hg]
      · by_cases hv : w = v
        · subst hv
          simp [hg, List.count_replicate]
        · simp [hg, hv, List.count_replicate, Ne.symm hv]
  · simp [expand]

/-- Closed witness for C3's amended theorem: counting the value `1` in the
expansion of `usd` over a two-record list. -/
theorem c3_expansion_over_uncollapsed_witness :
    (expand Attr.usd [{ cBase with usd := some 1, amount := 2 }, cBase]).count
        (Value.num 1) =
      ([{ cBase with usd := some 1, amount := 2 }, cBase].map fun c =>
        if getAttr c Attr.usd = some (Value.num 1) then c.amount else 0).sum :=
  (c3_expansion_over_uncollapsed Attr.usd
      [{ cBase with usd := some 1, amount := 2 }, cBase]).1 (by decide) (Value.num 1)

/-- C3 (counterexample): the claim says the multiset is built from the
COLLAPSED record set, one value per collapsed record for the quantity
attribute. Two identical unit-quantity records collapse into one record of
quantity 2, so the claim's multiset for the `amount` statistic is {2} — but
`expand` iterates over the uncollapsed card list (mtg.py lines 403-412),
giving {1, 1}: `max`, `min`, `avg`, `median` and `unique` differ. -/
theorem c3_counterexample :
    ((expand Attr.amount (finalCards [] [Attr.name] [cBase, cBase]) :
        List Value) : Multiset Value) ≠
      ((expandSpecCollapsed Attr.amount
          (finalCollapsed [] [Attr.name] [cBase, cBase]) :
        List Value) : Multiset Value) := by
  have h1 : finalCards [] [Attr.name] [cBase, cBase] = [cBase, cBase] := by
    show sortCards [Attr.name] [cBase, cBase] = [cBase, cBase]
    exact sortCards_of_sorted (by decide)
  have hc : collapse [Attr.name] [cBase, cBase] =
      [⟨{ cBase with amount := 2 }, [0, 1]⟩] := by decide
  have h2 : finalCollapsed [] [Attr.name] [cBase, cBase] =
      [⟨{ cBase with amount := 2 }, [0, 1]⟩] := by
    show sortCRecs [Attr.name] (collapse [Attr.name] [cBase, cBase]) = _
    rw [hc]
    exact sortCRecs_of_sorted (by decide)
  rw [h1, h2]
  intro h
  have hcard := congrArg Multiset.card h
  simp [expand, expandSpecCollapsed] at hcard

/-- C4 (code evaluation at the failing input): a single surviving record
whose `usd` is null makes the `usd` statistic multiset empty. Python's
`max`/`min`/`mean`/`median` then raise on the empty input (modelled `none`)
— an unreported crash aborting the whole run, not a "no data" line — while
`sum` silently yields the number 0, which is printed as a result. -/
theorem c4_empty_aggregate_crashes :
    runStat StatKind.max (numsOf (expand Attr.usd (finalCards [] [] [cBase]))) =
        none ∧
      runStat StatKind.total
          (numsOf (expand Attr.usd (finalCards [] [] [cBase]))) = some 0 ∧
      runStat StatKind.avg
          (numsOf (expand Attr.usd (finalCards [] [] [cBase]))) = none := by
  have h1 : finalCards [] [] [cBase] = [cBase] := by
    show sortCards [] [cBase] = [cBase]
    exact sortCards_of_sorted (by decide)
  rw [h1]
  exact ⟨rfl, rfl, rfl⟩

/-- C5: a record holding null on a filtered attribute never passes that
attribute's filter group, whatever operators or operands the group contains:
the pre-collapse keep predicate rejects it and the record is removed from
the record set. A null can never reach the quantity filter, because every
record's quantity is a non-null integer by construction. -/
theorem c5_null_never_passes (c : Card) (g : FilterGroup)
    (h : getAttr c g.attr = none) :
    keepPre g c = false ∧ (∀ cards : List Card, c ∉ cards.filter (keepPre g)) ∧
      g.attr ≠ Attr.amount := by
  have hk : keepPre g c = false := by
    unfold keepPre
    rw [h]
  refine ⟨hk, fun cards hc => ?_, fun he => ?_⟩
  · have hmem := (List.mem_filter.mp hc).2
    rw [hk] at hmem
    exact Bool.false_ne_true hmem
  · rw [he] at h
    simp [getAttr] at h

/-- Closed witness for C5: a record with null `usd` fails the filter group
`usd != 3` — the very group that would wrongly pass a null under Python's
`!=` were the null check absent. -/
theorem c5_null_never_passes_witness :
    keepPre ⟨Attr.usd, [(FilterOp.ne, Value.num 3)]⟩ cBase = false ∧
      cBase ∉ [cBase].filter (keepPre ⟨Attr.usd, [(FilterOp.ne, Value.num 3)]⟩) :=
  ⟨(c5_null_never_passes cBase ⟨Attr.usd, [(FilterOp.ne, Value.num 3)]⟩ rfl).1,
    (c5_null_never_passes cBase ⟨Attr.usd, [(FilterOp.ne, Value.num 3)]⟩ rfl).2.1
      [cBase]⟩

/-- C9 (code evaluation at the failing input): the numeric-operand check
regex `^[0-9]+(.[0-9]+)?$` (mtg.py line 111) leaves its dot unescaped, so it
matches any single character there: the operand "1a5" passes the check and
no error is reported (`findBadOperand` finds nothing), yet Python
`float("1a5")` at line 115 then raises an uncaught ValueError — an
unreported crash rather than the claimed parse error naming the operand.
A fully non-numeric operand like "x" is still reported as the claim says. -/
theorem c9_unescaped_dot_crash :
    findBadOperand ["1a5"] = none ∧ numRegexAccepts "1a5" = true ∧
      isPyFloatLit "1a5" = false ∧
      findBadOperand ["x"] = some "x" ∧ isPyFloatLit "12.5" = true ∧
      numRegexAccepts "12.5" = true := by
  refine ⟨?_, ?_, ?_, ?_, ?_, ?_⟩ <;> decide

end Mtg
